import Mathlib

/-!
# Verification of `src/utils/learning.py` (tomato-quantilization)

Shallow embedding of the learning core: the `QAgent` configuration, the
`beta_softmax` policy module, the `get_loss` TD-target pipeline, the
`get_action` sampling fallback, the Polyak `update_target_network`, and the
fixed-capacity FIFO `StateBuffer`.

Modelling conventions:
* Tensors are `List (List ℝ)` (batch of rows); per-row operations mirror the
  `dim=-1` torch operations.
* The two function approximators are abstract functions `σ → List ℝ` from a
  state to a row of action values (the spec treats the network architecture
  as a swappable capability).
* Randomness (`torch.multinomial`, `random.sample`) is passed in explicitly:
  the sampler's outcome (or the chosen index set) is a parameter.
* Real arithmetic has no NaN/Inf, so the non-finite guard of
  `beta_softmax` (source lines 203-206) is modelled separately over a float
  type extended with non-finite values (`PFloat`, `fixNonFinite`).
-/

namespace Learning

/-- Operating mode of the policy module (source: the `mode` literal of
`beta_softmax`, lines 167 and 181-186). -/
inductive Mode
  | sample
  | train
  | deploy
deriving DecidableEq, Repr

/-- Configuration state of `QAgent` relevant to the learning algorithm
(source lines 44-68): discount factor, the three optional temperatures and
the optional value cap (the approximator parameters are modelled separately
as abstract functions / parameter lists). -/
structure QAgent where
  gamma : ℝ
  beta_train : Option ℝ
  beta_sample : Option ℝ
  beta_deploy : Option ℝ
  q_cap : Option ℝ

/-- Embedding of `QAgent.__init__` (source lines 44-68): stores the betas and converts
`reward_cap` into `q_cap = (1/(1-gamma)) * reward_cap` once at construction
(line 64). -/
noncomputable def QAgent.init (gamma : ℝ) (beta_train beta_sample beta_deploy : Option ℝ)
    (reward_cap : Option ℝ) : QAgent :=
  { gamma := gamma
    beta_train := beta_train
    beta_sample := beta_sample
    beta_deploy := beta_deploy
    q_cap := reward_cap.map (fun r => (1 / (1 - gamma)) * r) }

/-- Mode dispatch of `beta_softmax` (source lines 181-186). -/
def selectBeta (a : QAgent) : Mode → Option ℝ
  | Mode.sample => a.beta_sample
  | Mode.train => a.beta_train
  | Mode.deploy => a.beta_deploy

/-- One row of `(~action_validity).float() * -1e9` added to the outputs
(source line 189; also lines 85-86 in `get_loss`). -/
noncomputable def maskRow (out : List ℝ) (validity : List Bool) : List ℝ :=
  List.zipWith (fun o v => o + (if v then (0 : ℝ) else 1) * (-1e9)) out validity

/-- Computes `outputs + (~action_validity).float() * -1e9` when a validity
mask is supplied, `outputs` unchanged otherwise (source lines 188-189). -/
noncomputable def applyValidityMask (outputs : List (List ℝ)) :
    Option (List (List Bool)) → List (List ℝ)
  | none => outputs
  | some v => List.zipWith maskRow outputs v

/-- Embedding of `F.softmax` along the last dimension, one row (source line 193). -/
noncomputable def softmaxRow (xs : List ℝ) : List ℝ :=
  xs.map (fun x => Real.exp x / (xs.map Real.exp).sum)

/-- Embedding of `torch.argmax` along the last dimension, one row: index of the first
occurrence of the maximal value (ties keep the earlier index, as documented
for `torch.argmax`); source lines 147 and 196. -/
noncomputable def argmaxRow : List ℝ → ℕ
  | [] => 0
  | [_] => 0
  | x :: y :: t =>
      if x < (y :: t).getD (argmaxRow (y :: t)) 0 then argmaxRow (y :: t) + 1 else 0

/-- The greedy branch of `beta_softmax` for one row:
`probabilities = zeros_like(outputs); probabilities[i, argmax(outputs_i)] = 1`
(source lines 195-196). -/
noncomputable def oneHotRow (xs : List ℝ) : List ℝ :=
  (List.range xs.length).map (fun j => if j = argmaxRow xs then (1 : ℝ) else 0)

/-- The defensive clamp of `beta_softmax` (source lines 198-201): if the
maximum probability over the whole tensor is negative, clamp every entry to
be at least 0 (`probabilities.clamp(min=0)`); otherwise return unchanged. -/
noncomputable def clampNegGuard (p : List (List ℝ)) : List (List ℝ) :=
  match (p.flatten).maximum with
  | none => p
  | some m => if m < 0 then p.map (fun row => row.map (fun x => max x 0)) else p

/-- Embedding of `QAgent.beta_softmax` (source lines 167-209) over real
arithmetic:
select the temperature by mode, add the validity mask if provided, then
either softmax of `outputs * beta` (beta set) or a per-row one-hot on the
arg-max (beta unset), followed by the negative-probability clamp.  The
NaN/Inf guard of lines 203-206 is unreachable over ℝ and is modelled
separately as `fixNonFinite`. -/
noncomputable def beta_softmax (a : QAgent) (outputs : List (List ℝ)) (mode : Mode)
    (action_validity : Option (List (List Bool)) := none) : List (List ℝ) :=
  let beta := selectBeta a mode
  let masked := applyValidityMask outputs action_validity
  let probabilities :=
    match beta with
    | some b => masked.map (fun row => softmaxRow (row.map (fun x => x * b)))
    | none => masked.map oneHotRow
  clampNegGuard probabilities

/-- One batch of training data as consumed by `QAgent.get_loss`
(source lines 70-85): the state tensors are kept abstract (type `σ`), since
the approximators are abstract functions on them. -/
structure BatchData (σ : Type) where
  state : List σ
  next_state : List σ
  reward : List ℝ
  action : List ℕ
  action_validity : List (List Bool)
  next_state_action_validity : List (List Bool)

/-- Elementwise addition of two matrices of equal shape (torch `+`). -/
noncomputable def matAdd (A B : List (List ℝ)) : List (List ℝ) :=
  List.zipWith (fun r s => List.zipWith (· + ·) r s) A B

/-- Computes `(~mask).float() * -1e9` as a tensor (source lines 85-86). -/
noncomputable def invalidActionsMask (validity : List (List Bool)) : List (List ℝ) :=
  validity.map (fun row => row.map (fun v => (if v then (0 : ℝ) else 1) * (-1e9)))

/-- Embeds `outputs = self.network(data["state"]) + invalid_actions_mask`
(source line 87); `net` is the online approximator applied per batch row. -/
noncomputable def gl_outputs {σ : Type} (net : σ → List ℝ) (d : BatchData σ) :
    List (List ℝ) :=
  matAdd (d.state.map net) (invalidActionsMask d.action_validity)

/-- Embeds `probabilities = self.beta_softmax(outputs, mode="sample",
action_validity=data["action_validity"])` (source line 89). -/
noncomputable def gl_probabilities {σ : Type} (a : QAgent) (net : σ → List ℝ)
    (d : BatchData σ) : List (List ℝ) :=
  beta_softmax a (gl_outputs net d) Mode.sample (some d.action_validity)

/-- Embeds `next_q_values = self.target_network(data["next_state"]) +
next_state_invalid_actions_mask` (source line 93); `tnet` is the target
approximator. -/
noncomputable def gl_next_q_values {σ : Type} (tnet : σ → List ℝ) (d : BatchData σ) :
    List (List ℝ) :=
  matAdd (d.next_state.map tnet) (invalidActionsMask d.next_state_action_validity)

/-- Embeds `next_q_values.clamp(max=self.q_cap)` when `q_cap` is set, otherwise
`next_q_values` unchanged (source lines 94-97). -/
noncomputable def gl_next_q_values_capped {σ : Type} (a : QAgent) (tnet : σ → List ℝ)
    (d : BatchData σ) : List (List ℝ) :=
  match a.q_cap with
  | some c => (gl_next_q_values tnet d).map (fun row => row.map (fun x => min x c))
  | none => gl_next_q_values tnet d

/-- Embeds `next_probabilities = self.beta_softmax(next_q_values, mode="train",
action_validity=data["action_validity"])` (source lines 99-102).  NOTE: the
source passes the CURRENT state's `action_validity` here, not
`next_state_action_validity`; the embedding reproduces the source. -/
noncomputable def gl_next_probabilities {σ : Type} (a : QAgent) (tnet : σ → List ℝ)
    (d : BatchData σ) : List (List ℝ) :=
  beta_softmax a (gl_next_q_values tnet d) Mode.train (some d.action_validity)

/-- Row dot product, used for `torch.einsum("ba,ba->b", ...)`. -/
noncomputable def dotRow (xs ys : List ℝ) : ℝ :=
  (List.zipWith (· * ·) xs ys).sum

/-- Embeds `next_values = torch.einsum("ba,ba->b", next_probabilities,
next_q_values_capped)` (source line 104). -/
noncomputable def gl_next_values {σ : Type} (a : QAgent) (tnet : σ → List ℝ)
    (d : BatchData σ) : List ℝ :=
  List.zipWith dotRow (gl_next_probabilities a tnet d) (gl_next_q_values_capped a tnet d)

/-- Embeds `target_rewards = data["reward"] + self.gamma * next_values`
(source line 106). -/
noncomputable def gl_target_rewards {σ : Type} (a : QAgent) (tnet : σ → List ℝ)
    (d : BatchData σ) : List ℝ :=
  List.zipWith (fun r v => r + a.gamma * v) d.reward (gl_next_values a tnet d)

/-- Embeds `predicted_rewards = outputs.gather(1, ...).squeeze()`
(source line 108): per batch row `b`, the entry of `outputs[b]` at index
`action[b]`. -/
noncomputable def gl_predicted_rewards {σ : Type} (net : σ → List ℝ) (d : BatchData σ) :
    List ℝ :=
  List.zipWith (fun row i => row.getD i 0) (gl_outputs net d) d.action

/-- Embedding of `F.smooth_l1_loss` with the default `beta=1.0`, one
element:
quadratic for residuals below 1, linear beyond. -/
noncomputable def smoothL1 (x y : ℝ) : ℝ :=
  if |x - y| < 1 then (x - y) ^ 2 / 2 else |x - y| - 1 / 2

/-- Embeds `F.smooth_l1_loss(predicted, target)` with the default mean
reduction
(source line 109). -/
noncomputable def smooth_l1_loss (pred target : List ℝ) : ℝ :=
  (List.zipWith smoothL1 pred target).sum / pred.length

/-- Embeds `loss = F.smooth_l1_loss(predicted_rewards, target_rewards)`
(source line 109). -/
noncomputable def gl_loss {σ : Type} (a : QAgent) (net tnet : σ → List ℝ)
    (d : BatchData σ) : ℝ :=
  smooth_l1_loss (gl_predicted_rewards net d) (gl_target_rewards a tnet d)

/-- Embeds `base_probabilities = F.softmax(invalid_actions_mask, dim=1)`
(source line 112). -/
noncomputable def gl_base_probabilities {σ : Type} (d : BatchData σ) : List (List ℝ) :=
  (invalidActionsMask d.action_validity).map softmaxRow

/-- The diagnostic KL divergence of `get_loss` (source lines 112-114):
`sum(base * log(base / (probabilities + 1e-9) + 1e-9), dim=-1).mean()`. -/
noncomputable def gl_kl_divergence {σ : Type} (a : QAgent) (net : σ → List ℝ)
    (d : BatchData σ) : ℝ :=
  let base := gl_base_probabilities d
  let probs := gl_probabilities a net d
  let rowKl := List.zipWith
    (fun brow prow =>
      (List.zipWith (fun b p => b * Real.log (b / (p + 1e-9) + 1e-9)) brow prow).sum)
    base probs
  rowKl.sum / rowKl.length

/-- The result dictionary of `QAgent.get_loss` (source lines 116-121). -/
structure GetLossResult where
  loss : ℝ
  outputs : List (List ℝ)
  probabilities : List (List ℝ)
  kl_divergence : ℝ

/-- Embedding of `QAgent.get_loss` (source lines 70-121), assembled from the per-line
definitions above. -/
noncomputable def get_loss {σ : Type} (a : QAgent) (net tnet : σ → List ℝ)
    (d : BatchData σ) : GetLossResult :=
  { loss := gl_loss a net tnet d
    outputs := gl_outputs net d
    probabilities := gl_probabilities a net d
    kl_divergence := gl_kl_divergence a net d }

/-- Embedding of `QAgent.get_action` (source lines 123-152).  The categorical draw
`torch.multinomial(probabilities, 1)` is modelled by the `sampler`
parameter: `some s` is a successful draw returning one index per batch row
(the flattened `(batch, 1)` column), `none` is a raised exception, in which
case the code falls back to `torch.argmax(probabilities, dim=-1)` (the
`logger.warning` side effects are outside the embedding).  A scalar result
(`.item()`) is `Sum.inl`, a list result (`.flatten().tolist()`) is
`Sum.inr`. -/
noncomputable def get_action {σ : Type} (a : QAgent) (net : σ → List ℝ)
    (state : List σ) (action_validity : Option (List (List Bool))) (mode : Mode)
    (sampler : List (List ℝ) → Option (List ℕ)) : ℕ ⊕ List ℕ :=
  let outputs := state.map net
  let probabilities := beta_softmax a outputs mode action_validity
  let output :=
    match sampler probabilities with
    | some s => s
    | none => probabilities.map argmaxRow
  if output.length = 1 then Sum.inl (output.headD 0) else Sum.inr output

/-- The parameter tensors of the online and target approximators.  Both
`QNetwork` instances have identical structure, so the name-keyed
`state_dict` iteration of the source corresponds to a positional pairing of
parameter tensors (each tensor flattened to a list of scalars). -/
structure Nets where
  network : List (List ℝ)
  target_network : List (List ℝ)

/-- Embedding of `QAgent.update_target_network` (source lines 154-165): every target
parameter becomes `target * (1 - tau) + online * tau` (an in-place
`copy_` on the target parameters; the online parameters are not written). -/
noncomputable def update_target_network (n : Nets) (tau : ℝ) : Nets :=
  { network := n.network
    target_network :=
      List.zipWith
        (fun tgt onl => List.zipWith (fun t p => t * (1 - tau) + p * tau) tgt onl)
        n.target_network n.network }

/-- Embedding of `StateBuffer` (source lines 211-238) over an abstract transition type
`T`: a `deque(maxlen=buffer_size)` is modelled as a list that drops its
oldest (leftmost) elements whenever an append exceeds the capacity. -/
structure StateBuffer (T : Type) where
  buffer_size : ℕ
  batch_size : ℕ
  buffers : List T

/-- Embedding of `StateBuffer.add` (source lines 218-219): `deque.append` with
`maxlen=buffer_size` — append on the right, evict from the left when the
capacity is exceeded. -/
def StateBuffer.add {T : Type} (s : StateBuffer T) (d : T) : StateBuffer T :=
  { s with
    buffers :=
      let b := s.buffers ++ [d]
      if s.buffer_size < b.length then b.drop (b.length - s.buffer_size) else b }

/-- Embedding of `StateBuffer.__len__` (source lines 234-235). -/
def StateBuffer.len {T : Type} (s : StateBuffer T) : ℕ :=
  s.buffers.length

/-- Embedding of `StateBuffer.clear` (source lines 237-238). -/
def StateBuffer.clear {T : Type} (s : StateBuffer T) : StateBuffer T :=
  { s with buffers := [] }

/-- Embedding of `StateBuffer.get_batch` (source lines 221-232).  The random draw
`random.sample(self.buffers, self.batch_size)` is modelled by the `choice`
parameter listing the chosen buffer positions (by `random.sample`'s
contract these are `batch_size` distinct valid indices).  The subsequent
stacking loop reads `batch[0].keys()`, which raises an `IndexError` when
the sampled list is empty; with the transition type abstract, stacking the
per-key fields is the identity on the sampled list.  The buffer state is
returned alongside the result: the method never writes `self.buffers`. -/
def StateBuffer.get_batch {T : Type} [Inhabited T] (s : StateBuffer T)
    (choice : List ℕ) : Except String (List T) × StateBuffer T :=
  if s.buffers.length < s.batch_size then
    (Except.error "Not enough data in buffer to get a batch", s)
  else
    match choice.map (fun i => s.buffers.getD i default) with
    | [] => (Except.error "list index out of range", s)
    | d :: rest => (Except.ok (d :: rest), s)

/-- A floating-point value extended with the non-finite values that real
arithmetic cannot represent; used to model the NaN/Inf guard of
`beta_softmax`. -/
inductive PFloat
  | finite (q : ℚ)
  | nan
  | inf
  | ninf
deriving DecidableEq, Repr

/-- Computes `x.isnan() or x.isinf()` for a single extended value. -/
def PFloat.nonFinite : PFloat → Bool
  | PFloat.finite _ => false
  | _ => true

/-- Computes `probabilities.isnan().any() or probabilities.isinf().any()` over the
whole tensor. -/
def hasNonFinite (p : List (List PFloat)) : Bool :=
  p.any (fun row => row.any PFloat.nonFinite)

/-- The NaN/Inf guard of `beta_softmax` (source lines 203-206): if ANY entry
of the probabilities tensor is NaN or infinite, the WHOLE tensor is replaced
by `torch.ones_like(probabilities)`; otherwise it is returned unchanged.
(The accompanying `logger.warning` is a side effect outside the embedding;
the function is total, so execution continues without raising.) -/
def fixNonFinite (p : List (List PFloat)) : List (List PFloat) :=
  if hasNonFinite p then p.map (fun row => row.map (fun _ => PFloat.finite 1))
  else p

/-! ## Helper lemmas about `argmaxRow` -/

/-- On nonempty rows, `argmaxRow` returns an in-range index. -/
theorem argmaxRow_lt_length : ∀ (xs : List ℝ), xs ≠ [] → argmaxRow xs < xs.length
  | [], h => absurd rfl h
  | [_], _ => by simp [argmaxRow]
  | x :: y :: t, _ => by
      have ih := argmaxRow_lt_length (y :: t) (by simp)
      simp only [argmaxRow]
      split
      · simpa using ih
      · simp

/-- The entry at `argmaxRow` is the maximum of the row. -/
theorem argmaxRow_attains : ∀ (xs : List ℝ) (i : ℕ), i < xs.length →
    xs.getD i 0 ≤ xs.getD (argmaxRow xs) 0
  | [], i, h => by simp at h
  | [x], i, h => by
      have : i = 0 := by simpa using Nat.lt_one_iff.mp (by simpa using h)
      subst this
      simp [argmaxRow]
  | x :: y :: t, i, h => by
      have ih := fun j hj => argmaxRow_attains (y :: t) j hj
      simp only [argmaxRow]
      split
      case isTrue hlt =>
        rw [List.getD_cons_succ]
        match i with
        | 0 => exact le_of_lt (by simpa using hlt)
        | Nat.succ i' =>
            rw [List.getD_cons_succ]
            exact ih i' (by simpa using h)
      case isFalse hge =>
        rw [List.getD_cons_zero]
        match i with
        | 0 => simp
        | Nat.succ i' =>
            rw [List.getD_cons_succ]
            exact le_trans (ih i' (by simpa using h)) (not_lt.mp hge)

/-- First-occurrence tie-break: `argmaxRow` is the FIRST index attaining
the maximum: every earlier
index holds a strictly smaller value. -/
theorem argmaxRow_first : ∀ (xs : List ℝ) (i : ℕ), i < argmaxRow xs →
    xs.getD i 0 < xs.getD (argmaxRow xs) 0
  | [], i, h => by simp [argmaxRow] at h
  | [x], i, h => by simp [argmaxRow] at h
  | x :: y :: t, i, h => by
      have ih := fun j hj => argmaxRow_first (y :: t) j hj
      simp only [argmaxRow] at h ⊢
      split
      case isTrue hlt =>
        rw [List.getD_cons_succ]
        match i with
        | 0 => simpa using hlt
        | Nat.succ i' =>
            rw [List.getD_cons_succ]
            rw [if_pos hlt] at h
            exact ih i' (by omega)
      case isFalse hge =>
        rw [if_neg hge] at h
        omega

/-! ## Helper lemmas about `oneHotRow` -/

theorem getD_range_map {α : Type} (f : ℕ → α) (n j : ℕ) (d : α) (h : j < n) :
    ((List.range n).map f).getD j d = f j := by
  rw [List.getD_eq_getElem?_getD, List.getElem?_eq_getElem (by simpa using h)]
  simp

@[simp]
theorem oneHotRow_length (xs : List ℝ) : (oneHotRow xs).length = xs.length := by
  simp [oneHotRow]

theorem oneHotRow_getD (xs : List ℝ) (j : ℕ) (h : j < xs.length) :
    (oneHotRow xs).getD j 0 = if j = argmaxRow xs then (1 : ℝ) else 0 :=
  getD_range_map _ _ _ _ h

theorem oneHotRow_nonneg (xs : List ℝ) (x : ℝ) (hx : x ∈ oneHotRow xs) : 0 ≤ x := by
  simp only [oneHotRow, List.mem_map] at hx
  obtain ⟨j, -, rfl⟩ := hx
  split <;> norm_num

theorem sum_range_indicator (n a : ℕ) (ha : a < n) :
    ((List.range n).map (fun j => if j = a then (1 : ℝ) else 0)).sum = 1 := by
  induction n with
  | zero => omega
  | succ m ih =>
      rw [List.range_succ, List.map_append, List.sum_append]
      rcases Nat.lt_or_ge a m with hm | hm
      · rw [ih hm]
        have : m ≠ a := by omega
        simp [this]
      · have ham : a = m := by omega
        subst ham
        have hz : ((List.range a).map (fun j => if j = a then (1 : ℝ) else 0)).sum = 0 := by
          apply List.sum_eq_zero
          intro x hx
          simp only [List.mem_map, List.mem_range] at hx
          obtain ⟨j, hj, rfl⟩ := hx
          rw [if_neg (by omega)]
        rw [hz]
        simp

theorem oneHotRow_sum (xs : List ℝ) (h : xs ≠ []) : (oneHotRow xs).sum = 1 :=
  sum_range_indicator _ _ (argmaxRow_lt_length xs h)

/-! ## Helper lemmas about `softmaxRow` -/

@[simp]
theorem softmaxRow_length (xs : List ℝ) : (softmaxRow xs).length = xs.length := by
  simp [softmaxRow]

theorem sum_map_exp_pos (xs : List ℝ) (h : xs ≠ []) : 0 < (xs.map Real.exp).sum := by
  apply List.sum_pos
  · intro x hx
    simp only [List.mem_map] at hx
    obtain ⟨y, -, rfl⟩ := hx
    exact Real.exp_pos y
  · simpa using h

theorem softmaxRow_nonneg (xs : List ℝ) (x : ℝ) (hx : x ∈ softmaxRow xs) : 0 ≤ x := by
  simp only [softmaxRow, List.mem_map] at hx
  obtain ⟨y, -, rfl⟩ := hx
  apply div_nonneg (le_of_lt (Real.exp_pos y))
  apply List.sum_nonneg
  intro z hz
  simp only [List.mem_map] at hz
  obtain ⟨w, -, rfl⟩ := hz
  exact le_of_lt (Real.exp_pos w)

theorem sum_map_div (l : List ℝ) (f : ℝ → ℝ) (c : ℝ) :
    (l.map (fun x => f x / c)).sum = (l.map f).sum / c := by
  induction l with
  | nil => simp
  | cons y ys ih =>
      simp only [List.map_cons, List.sum_cons, ih, add_div]

theorem softmaxRow_sum (xs : List ℝ) (h : xs ≠ []) : (softmaxRow xs).sum = 1 := by
  have hS := sum_map_exp_pos xs h
  unfold softmaxRow
  rw [sum_map_div xs Real.exp ((xs.map Real.exp).sum)]
  exact div_self (ne_of_gt hS)

/-! ## Helper lemmas about the defensive guard and `beta_softmax` -/

theorem clampNegGuard_eq_self (p : List (List ℝ))
    (h : ∀ row ∈ p, ∀ x ∈ row, 0 ≤ x) : clampNegGuard p = p := by
  unfold clampNegGuard
  cases hmax : (p.flatten).maximum with
  | bot => rfl
  | coe m =>
      have hm : m ∈ p.flatten := List.maximum_mem hmax
      simp only [List.mem_flatten] at hm
      obtain ⟨row, hrow, hmrow⟩ := hm
      exact if_neg (not_lt.mpr (h row hrow m hmrow))

theorem map_oneHot_nonneg (m : List (List ℝ)) :
    ∀ row ∈ m.map oneHotRow, ∀ x ∈ row, 0 ≤ x := by
  intro row hrow x hx
  simp only [List.mem_map] at hrow
  obtain ⟨r, -, rfl⟩ := hrow
  exact oneHotRow_nonneg r x hx

theorem map_softmax_nonneg (m : List (List ℝ)) (b : ℝ) :
    ∀ row ∈ m.map (fun row => softmaxRow (row.map (fun x => x * b))),
      ∀ x ∈ row, 0 ≤ x := by
  intro row hrow x hx
  simp only [List.mem_map] at hrow
  obtain ⟨r, -, rfl⟩ := hrow
  exact softmaxRow_nonneg _ x hx

/-- With the selected temperature unset, `beta_softmax` is the greedy
branch: the defensive clamp never fires on a one-hot tensor. -/
theorem beta_softmax_none (a : QAgent) (outputs : List (List ℝ)) (mode : Mode)
    (v : Option (List (List Bool))) (hb : selectBeta a mode = none) :
    beta_softmax a outputs mode v = (applyValidityMask outputs v).map oneHotRow := by
  unfold beta_softmax
  rw [hb]
  exact clampNegGuard_eq_self _ (map_oneHot_nonneg _)

/-- With the selected temperature set, `beta_softmax` is the softmax
branch: the defensive clamp never fires on a softmax tensor. -/
theorem beta_softmax_some (a : QAgent) (outputs : List (List ℝ)) (mode : Mode)
    (v : Option (List (List Bool))) (b : ℝ) (hb : selectBeta a mode = some b) :
    beta_softmax a outputs mode v =
      (applyValidityMask outputs v).map
        (fun row => softmaxRow (row.map (fun x => x * b))) := by
  unfold beta_softmax
  rw [hb]
  exact clampNegGuard_eq_self _ (map_softmax_nonneg _ b)

/-- Every entry of the result of `beta_softmax` is nonnegative (row and
column read with defaults, which are themselves 0). -/
theorem beta_softmax_entry_nonneg (a : QAgent) (outputs : List (List ℝ)) (mode : Mode)
    (v : Option (List (List Bool))) :
    ∀ row ∈ beta_softmax a outputs mode v, ∀ x ∈ row, 0 ≤ x := by
  cases hb : selectBeta a mode with
  | none => rw [beta_softmax_none a outputs mode v hb]; exact map_oneHot_nonneg _
  | some b => rw [beta_softmax_some a outputs mode v b hb]; exact map_softmax_nonneg _ b

/-- In-range `getD` reads an element of the list. -/
theorem getD_mem {α : Type} (l : List α) (i : ℕ) (d : α) (h : i < l.length) :
    l.getD i d ∈ l := by
  rw [List.getD_eq_getElem?_getD, List.getElem?_eq_getElem h]
  exact List.getElem_mem h

/-- Out-of-range `getD` returns the default. -/
theorem getD_of_ge {α : Type} (l : List α) (i : ℕ) (d : α) (h : l.length ≤ i) :
    l.getD i d = d := by
  rw [List.getD_eq_getElem?_getD, List.getElem?_eq_none h]
  rfl

/-- Reading a doubly-indexed entry with default 0 out of a tensor of
nonnegative entries gives a nonnegative value. -/
theorem getD_getD_nonneg (p : List (List ℝ))
    (h : ∀ row ∈ p, ∀ x ∈ row, 0 ≤ x) (i j : ℕ) : 0 ≤ (p.getD i []).getD j 0 := by
  rcases Nat.lt_or_ge i p.length with hi | hi
  · have hrow := getD_mem p i [] hi
    rcases Nat.lt_or_ge j (p.getD i []).length with hj | hj
    · exact h _ hrow _ (getD_mem _ j 0 hj)
    · rw [getD_of_ge _ _ _ hj]
  · rw [getD_of_ge _ _ _ hi]
    simp

/-- In-range `getD` commutes with `map`. -/
theorem getD_map_lt {α β : Type} (f : α → β) (l : List α) (i : ℕ) (h : i < l.length)
    (d : α) (d' : β) : (l.map f).getD i d' = f (l.getD i d) := by
  rw [List.getD_eq_getElem?_getD, List.getElem?_eq_getElem (by simpa using h)]
  rw [List.getD_eq_getElem?_getD, List.getElem?_eq_getElem h]
  simp

@[simp]
theorem beta_softmax_length (a : QAgent) (o : List (List ℝ)) (mode : Mode)
    (v : Option (List (List Bool))) :
    (beta_softmax a o mode v).length = (applyValidityMask o v).length := by
  cases hb : selectBeta a mode with
  | none => rw [beta_softmax_none a o mode v hb, List.length_map]
  | some b => rw [beta_softmax_some a o mode v b hb, List.length_map]

/-- Every row of a `beta_softmax` result whose masked input row is nonempty
sums to 1: the softmax branch normalizes, the greedy branch is one-hot. -/
theorem beta_softmax_row_sum (a : QAgent) (o : List (List ℝ)) (mode : Mode)
    (v : Option (List (List Bool))) (i : ℕ)
    (hi : i < (applyValidityMask o v).length)
    (hrow : (applyValidityMask o v).getD i [] ≠ []) :
    ((beta_softmax a o mode v).getD i []).sum = 1 := by
  cases hb : selectBeta a mode with
  | none =>
      rw [beta_softmax_none a o mode v hb, getD_map_lt _ _ i hi []]
      exact oneHotRow_sum _ hrow
  | some b =>
      rw [beta_softmax_some a o mode v b hb, getD_map_lt _ _ i hi []]
      exact softmaxRow_sum _ (by simpa using hrow)

/-- Rows of `beta_softmax` keep the masked row's length. -/
theorem beta_softmax_row_length (a : QAgent) (o : List (List ℝ)) (mode : Mode)
    (v : Option (List (List Bool))) (i : ℕ)
    (hi : i < (applyValidityMask o v).length) :
    ((beta_softmax a o mode v).getD i []).length
      = ((applyValidityMask o v).getD i []).length := by
  cases hb : selectBeta a mode with
  | none =>
      rw [beta_softmax_none a o mode v hb, getD_map_lt _ _ i hi []]
      simp
  | some b =>
      rw [beta_softmax_some a o mode v b hb, getD_map_lt _ _ i hi []]
      simp

/-- A dot product of a nonnegative vector against a vector bounded above by
`c` is at most `c` times the total mass. -/
theorem dotRow_le_of_bound : ∀ (ps qs : List ℝ) (c : ℝ),
    (∀ x ∈ ps, 0 ≤ x) → (∀ y ∈ qs, y ≤ c) → ps.length = qs.length →
    dotRow ps qs ≤ c * ps.sum
  | [], qs, c, _, _, _ => by simp [dotRow]
  | p :: ps', [], c, _, _, hlen => by simp at hlen
  | p :: ps', q :: qs', c, hp, hq, hlen => by
      have ih := dotRow_le_of_bound ps' qs' c
        (fun x hx => hp x (List.mem_cons_of_mem _ hx))
        (fun y hy => hq y (List.mem_cons_of_mem _ hy))
        (by simpa using hlen)
      simp only [dotRow, List.zipWith_cons_cons, List.sum_cons] at ih ⊢
      have h1 : p * q ≤ p * c :=
        mul_le_mul_of_nonneg_left (hq q (List.mem_cons_self q qs'))
          (hp p (List.mem_cons_self p ps'))
      calc p * q + (List.zipWith (· * ·) ps' qs').sum
          ≤ p * c + c * ps'.sum := add_le_add h1 ih
        _ = c * (p + ps'.sum) := by ring

/-- In-range `getD` commutes with `zipWith`. -/
theorem getD_zipWith {α β γ : Type} (f : α → β → γ) (l1 : List α) (l2 : List β)
    (i : ℕ) (h1 : i < l1.length) (h2 : i < l2.length) (d1 : α) (d2 : β) (d3 : γ) :
    (List.zipWith f l1 l2).getD i d3 = f (l1.getD i d1) (l2.getD i d2) := by
  rw [List.getD_eq_getElem?_getD,
    List.getElem?_eq_getElem (by rw [List.length_zipWith]; omega)]
  rw [List.getD_eq_getElem?_getD, List.getElem?_eq_getElem h1]
  rw [List.getD_eq_getElem?_getD, List.getElem?_eq_getElem h2]
  simp

theorem zipWith_right_id {α β : Type} (f : α → β → β) (h : ∀ a b, f a b = b) :
    ∀ (as : List α) (bs : List β), bs.length ≤ as.length → List.zipWith f as bs = bs
  | _, [], _ => by simp
  | [], b :: bs, h2 => by simp at h2
  | a :: as, b :: bs, h2 => by
      simp only [List.zipWith_cons_cons, h a b]
      rw [zipWith_right_id f h as bs (by simpa using h2)]

theorem zipWith_left_id {α β : Type} (f : α → β → α) (h : ∀ a b, f a b = a) :
    ∀ (as : List α) (bs : List β), as.length ≤ bs.length → List.zipWith f as bs = as
  | [], _, _ => by simp
  | a :: as, [], h2 => by simp at h2
  | a :: as, b :: bs, h2 => by
      simp only [List.zipWith_cons_cons, h a b]
      rw [zipWith_left_id f h as bs (by simpa using h2)]

theorem matZipWith_right_id (g : ℝ → ℝ → ℝ) (hg : ∀ x y, g x y = y) :
    ∀ (T N : List (List ℝ)), T.length = N.length →
      (∀ i, (T.getD i []).length = (N.getD i []).length) →
      List.zipWith (fun t p => List.zipWith g t p) T N = N
  | [], [], _, _ => by simp
  | [], n :: N, hl, _ => by simp at hl
  | t :: T, [], hl, _ => by simp at hl
  | t :: T, n :: N, hl, hrow => by
      have h0 := hrow 0
      simp only [List.getD_cons_zero] at h0
      have htail : ∀ i, (T.getD i []).length = (N.getD i []).length := by
        intro i
        have := hrow (i + 1)
        simpa [List.getD_cons_succ] using this
      simp only [List.zipWith_cons_cons]
      rw [zipWith_right_id g hg t n (le_of_eq h0.symm),
        matZipWith_right_id g hg T N (by simpa using hl) htail]

theorem matZipWith_left_id (g : ℝ → ℝ → ℝ) (hg : ∀ x y, g x y = x) :
    ∀ (T N : List (List ℝ)), T.length = N.length →
      (∀ i, (T.getD i []).length = (N.getD i []).length) →
      List.zipWith (fun t p => List.zipWith g t p) T N = T
  | [], [], _, _ => by simp
  | [], n :: N, hl, _ => by simp at hl
  | t :: T, [], hl, _ => by simp at hl
  | t :: T, n :: N, hl, hrow => by
      have h0 := hrow 0
      simp only [List.getD_cons_zero] at h0
      have htail : ∀ i, (T.getD i []).length = (N.getD i []).length := by
        intro i
        have := hrow (i + 1)
        simpa [List.getD_cons_succ] using this
      simp only [List.zipWith_cons_cons]
      rw [zipWith_left_id g hg t n (le_of_eq h0),
        matZipWith_left_id g hg T N (by simpa using hl) htail]

/-! ## Helper lemmas about the `StateBuffer` -/

/-- Folding `add` over a list of insertions keeps the most recent
`buffer_size` elements: the buffer equals the tail of all insertions. -/
theorem foldl_add_buffers {T : Type} (cap bs : ℕ) :
    ∀ (xs : List T) (buf : List T), buf.length ≤ cap →
      (List.foldl StateBuffer.add (⟨cap, bs, buf⟩ : StateBuffer T) xs).buffers
        = (buf ++ xs).drop (buf.length + xs.length - cap)
  | [], buf, h => by simp [Nat.sub_eq_zero_of_le h]
  | t :: rest, buf, h => by
      rw [List.foldl_cons]
      by_cases hc : cap < buf.length + 1
      · have hbl : buf.length = cap := by omega
        have hadd : (⟨cap, bs, buf⟩ : StateBuffer T).add t
            = ⟨cap, bs, (buf ++ [t]).drop 1⟩ := by
          simp only [StateBuffer.add, List.length_append, List.length_singleton]
          rw [if_pos (by simpa using hc)]
          simp [hbl]
        rw [hadd]
        have hlen : ((buf ++ [t]).drop 1).length ≤ cap := by
          simp [hbl]
        rw [foldl_add_buffers cap bs rest _ hlen]
        have hdl : ((buf ++ [t]).drop 1).length = cap := by simp [hbl]
        rw [hdl]
        rw [← List.drop_append_of_le_length (by simp)]
        rw [List.drop_drop]
        rw [← List.append_cons]
        congr 1
        simp [hbl]
        omega
      · have hadd : (⟨cap, bs, buf⟩ : StateBuffer T).add t
            = ⟨cap, bs, buf ++ [t]⟩ := by
          simp only [StateBuffer.add, List.length_append, List.length_singleton]
          rw [if_neg (by simpa using hc)]
        rw [hadd]
        rw [foldl_add_buffers cap bs rest _ (by simp; omega)]
        rw [← List.append_cons]
        congr 1
        simp
        omega

/-! ## Claim theorems -/

/-- C8: The `StateBuffer` is a fixed-capacity FIFO: `add` appends (and,
once `buffer_size` elements are stored, each further `add` evicts the
oldest element), so after inserting `buffer_size + k` transitions (`k > 0`)
into an empty buffer, `len` equals `buffer_size` and the buffer holds
exactly the most recent `buffer_size` insertions in insertion order. -/
theorem stateBuffer_fifo {T : Type} (cap bs k : ℕ) (xs : List T)
    (hk : 0 < k) (hlen : xs.length = cap + k) :
    (∀ (s : StateBuffer T) (t : T), s.buffers.length < s.buffer_size →
        (s.add t).buffers = s.buffers ++ [t])
    ∧ (∀ (s : StateBuffer T) (t : T), s.buffers.length = s.buffer_size →
        (s.add t).buffers = (s.buffers ++ [t]).drop 1)
    ∧ (List.foldl StateBuffer.add (⟨cap, bs, []⟩ : StateBuffer T) xs).len = cap
    ∧ (List.foldl StateBuffer.add (⟨cap, bs, []⟩ : StateBuffer T) xs).buffers
        = xs.drop k := by
  have hfold := foldl_add_buffers cap bs xs [] (by simp)
  simp only [List.nil_append, List.length_nil, Nat.zero_add] at hfold
  refine ⟨?_, ?_, ?_, ?_⟩
  · intro s t hs
    simp only [StateBuffer.add]
    rw [if_neg (by simp; omega)]
  · intro s t hs
    simp only [StateBuffer.add]
    rw [if_pos (by simp; omega)]
    simp [hs]
  · rw [StateBuffer.len, hfold, List.length_drop]
    omega
  · rw [hfold, hlen]
    congr 1
    omega

/-- C7 (amended): `get_batch` fails with the insufficient-data error
exactly when fewer than `batch_size` transitions are stored; otherwise,
provided `batch_size ≥ 1`, it returns the `batch_size` transitions at the
chosen (distinct, in-range, as `random.sample` guarantees) positions, each
a stored transition, and leaves the buffer unchanged. -/
theorem get_batch_spec {T : Type} [Inhabited T] (s : StateBuffer T)
    (choice : List ℕ) (hbs : 1 ≤ s.batch_size)
    (hlen : choice.length = s.batch_size) (hnodup : choice.Nodup)
    (hvalid : ∀ i ∈ choice, i < s.buffers.length) :
    (s.buffers.length < s.batch_size →
      s.get_batch choice = (Except.error "Not enough data in buffer to get a batch", s))
    ∧ (s.batch_size ≤ s.buffers.length →
      (s.get_batch choice).1
          = Except.ok (choice.map (fun i => s.buffers.getD i default))
      ∧ (choice.map (fun i => s.buffers.getD i default)).length = s.batch_size
      ∧ (∀ x ∈ choice.map (fun i => s.buffers.getD i default), x ∈ s.buffers)
      ∧ (s.get_batch choice).2 = s) := by
  constructor
  · intro h
    rw [StateBuffer.get_batch, if_pos h]
  · intro h
    have hmem : ∀ x ∈ choice.map (fun i => s.buffers.getD i default), x ∈ s.buffers := by
      intro x hx
      simp only [List.mem_map] at hx
      obtain ⟨i, hi, rfl⟩ := hx
      exact getD_mem _ _ _ (hvalid i hi)
    refine ⟨?_, by rw [List.length_map, hlen], hmem, ?_⟩
    · rw [StateBuffer.get_batch, if_neg (not_lt.mpr h)]
      cases hm : choice.map (fun i => s.buffers.getD i default) with
      | nil =>
          exfalso
          have : choice.length = 0 := by simpa using congrArg List.length hm
          omega
      | cons d rest => simp [hm]
    · rw [StateBuffer.get_batch, if_neg (not_lt.mpr h)]
      cases hm : choice.map (fun i => s.buffers.getD i default) with
      | nil => rfl
      | cons d rest => rfl

/-- C7 counterexample: With `batch_size = 0` (and a nonempty buffer),
the insufficient-data guard does not fire, yet `get_batch` raises
(`IndexError` on `batch[0]`) instead of returning a batch: the unamended
claim's "otherwise it returns `batch_size` transitions" is false. -/
theorem get_batch_counterexample :
    ¬ ((⟨5, 0, [42]⟩ : StateBuffer ℕ).buffers.length
        < (⟨5, 0, [42]⟩ : StateBuffer ℕ).batch_size)
    ∧ (⟨5, 0, [42]⟩ : StateBuffer ℕ).get_batch []
        = (Except.error "list index out of range", ⟨5, 0, [42]⟩) := by
  constructor
  · decide
  · rfl

/-- C3: `update_target_network(tau)` sets every target parameter to
`target * (1 - tau) + online * tau`, leaves every online parameter
untouched, makes the target an exact copy of the online parameters at
`tau = 1`, and leaves the target unchanged at `tau = 0`. -/
theorem update_target_network_spec (n : Nets) (tau : ℝ)
    (hl : n.target_network.length = n.network.length)
    (hrow : ∀ i, ((n.target_network.getD i []).length = (n.network.getD i []).length)) :
    ((update_target_network n tau).network = n.network)
    ∧ (∀ i j, i < n.target_network.length →
        j < (n.target_network.getD i []).length →
        ((update_target_network n tau).target_network.getD i []).getD j 0
          = (n.target_network.getD i []).getD j 0 * (1 - tau)
            + (n.network.getD i []).getD j 0 * tau)
    ∧ (tau = 1 → (update_target_network n tau).target_network = n.network)
    ∧ (tau = 0 → (update_target_network n tau).target_network = n.target_network) := by
  refine ⟨rfl, ?_, ?_, ?_⟩
  · intro i j hi hj
    rw [update_target_network]
    rw [getD_zipWith _ _ _ i hi (by omega) [] []]
    rw [getD_zipWith _ _ _ j hj (by rw [← hrow i]; omega) 0 0]
  · intro htau
    subst htau
    exact matZipWith_right_id _ (fun x y => by ring) _ _ hl hrow
  · intro htau
    subst htau
    exact matZipWith_left_id _ (fun x y => by ring) _ _ hl hrow

/-- C10: Every entry of the tensor returned by `beta_softmax` is
nonnegative, for every agent configuration, input tensor, mode and optional
validity mask (entries are read with default 0, so the statement covers
exactly the tensor's entries). -/
theorem beta_softmax_nonneg_spec (a : QAgent) (outputs : List (List ℝ)) (mode : Mode)
    (v : Option (List (List Bool))) (i j : ℕ) :
    0 ≤ ((beta_softmax a outputs mode v).getD i []).getD j 0 :=
  getD_getD_nonneg _ (beta_softmax_entry_nonneg a outputs mode v) i j

/-- C9: When the temperature selected for the mode is unset,
`beta_softmax` returns for every row a one-hot distribution: probability 1
on the arg-max of the masked row, 0 on every other action, where the
arg-max attains the row maximum and ties are broken by the
first-occurrence index (every earlier index holds a strictly smaller
value).  The function is pure, so repeated calls with identical inputs
return the identical distribution. -/
theorem beta_softmax_greedy_spec (a : QAgent) (o : List (List ℝ)) (mode : Mode)
    (v : Option (List (List Bool))) (i : ℕ) (hb : selectBeta a mode = none)
    (hi : i < (applyValidityMask o v).length)
    (hrow : (applyValidityMask o v).getD i [] ≠ []) :
    (((beta_softmax a o mode v).getD i []).getD
        (argmaxRow ((applyValidityMask o v).getD i [])) 0 = 1)
    ∧ (∀ j < ((applyValidityMask o v).getD i []).length,
        j ≠ argmaxRow ((applyValidityMask o v).getD i []) →
        ((beta_softmax a o mode v).getD i []).getD j 0 = 0)
    ∧ (∀ j < ((applyValidityMask o v).getD i []).length,
        ((applyValidityMask o v).getD i []).getD j 0
          ≤ ((applyValidityMask o v).getD i []).getD
              (argmaxRow ((applyValidityMask o v).getD i [])) 0)
    ∧ (∀ j < argmaxRow ((applyValidityMask o v).getD i []),
        ((applyValidityMask o v).getD i []).getD j 0
          < ((applyValidityMask o v).getD i []).getD
              (argmaxRow ((applyValidityMask o v).getD i [])) 0) := by
  have hres : (beta_softmax a o mode v).getD i []
      = oneHotRow ((applyValidityMask o v).getD i []) := by
    rw [beta_softmax_none a o mode v hb, getD_map_lt _ _ i hi []]
  refine ⟨?_, ?_, ?_, ?_⟩
  · rw [hres, oneHotRow_getD _ _ (argmaxRow_lt_length _ hrow), if_pos rfl]
  · intro j hj hne
    rw [hres, oneHotRow_getD _ _ hj, if_neg hne]
  · intro j hj
    exact argmaxRow_attains _ j hj
  · intro j hj
    exact argmaxRow_first _ j hj

/-- C6: `get_action` never lets a sampling failure escape: when the
categorical draw fails, it falls back to the per-row arg-max of the policy
probabilities; in every case it returns a scalar index when the batch
dimension is 1 and a list with one index per batch row otherwise. -/
theorem get_action_spec {σ : Type} (a : QAgent) (net : σ → List ℝ) (state : List σ)
    (v : Option (List (List Bool))) (mode : Mode)
    (sampler : List (List ℝ) → Option (List ℕ)) :
    (sampler (beta_softmax a (state.map net) mode v) = none →
      get_action a net state v mode sampler
        = if (beta_softmax a (state.map net) mode v).length = 1
          then Sum.inl (argmaxRow ((beta_softmax a (state.map net) mode v).getD 0 []))
          else Sum.inr ((beta_softmax a (state.map net) mode v).map argmaxRow))
    ∧ (∀ smp, sampler (beta_softmax a (state.map net) mode v) = some smp →
      get_action a net state v mode sampler
        = if smp.length = 1 then Sum.inl (smp.headD 0) else Sum.inr smp) := by
  constructor
  · intro hn
    simp only [get_action, hn]
    rw [List.length_map]
    by_cases hl : (beta_softmax a (state.map net) mode v).length = 1
    · rw [if_pos hl, if_pos hl]
      cases hp : beta_softmax a (state.map net) mode v with
      | nil => rw [hp] at hl; simp at hl
      | cons p t => simp [hp]
    · rw [if_neg hl, if_neg hl]
  · intro smp hs
    simp only [get_action, hs]

/-- C4 counterexample: A batch whose first row is a perfectly finite
distribution and whose second row contains a NaN: the guard replaces BOTH
rows with all-ones, so the finite row does not keep its computed
distribution, contradicting the claim's per-row recovery. -/
theorem fixNonFinite_counterexample :
    fixNonFinite [[PFloat.finite 1, PFloat.finite 0],
        [PFloat.nan, PFloat.finite 1]]
      = [[PFloat.finite 1, PFloat.finite 1], [PFloat.finite 1, PFloat.finite 1]]
    ∧ (fixNonFinite [[PFloat.finite 1, PFloat.finite 0],
        [PFloat.nan, PFloat.finite 1]]).getD 0 []
      ≠ [PFloat.finite 1, PFloat.finite 0] := by
  constructor
  · decide
  · decide

/-- C4 (amended): If any probability is NaN or infinite, the ENTIRE
probabilities tensor — every row, including rows with only finite
entries — is replaced by an unnormalized all-ones tensor of the same
shape; if no entry is non-finite, the tensor is returned unchanged.  The
guard is total: execution continues without raising (the diagnostic
warning is a logging side effect outside the embedding). -/
theorem fixNonFinite_spec (p : List (List PFloat)) (i : ℕ) :
    (hasNonFinite p = true →
      (fixNonFinite p).getD i [] = (p.getD i []).map (fun _ => PFloat.finite 1))
    ∧ (hasNonFinite p = false → fixNonFinite p = p)
    ∧ (fixNonFinite p).length = p.length := by
  refine ⟨?_, ?_, ?_⟩
  · intro h
    rw [fixNonFinite, if_pos h]
    rcases Nat.lt_or_ge i p.length with hi | hi
    · exact getD_map_lt (fun row => row.map (fun _ => PFloat.finite 1)) p i hi [] []
    · rw [getD_of_ge _ _ _ (by simpa using hi), getD_of_ge _ _ _ hi]
      simp
  · intro h
    rw [fixNonFinite, if_neg (by simp [h])]
  · rw [fixNonFinite]
    split <;> simp

/-- Pointwise reading of `maskRow`: a valid action keeps its value, an
invalid one has `-1e9` added. -/
theorem maskRow_getD (orow : List ℝ) (vrow : List Bool) (j : ℕ)
    (hjo : j < orow.length) (hjv : j < vrow.length) :
    (maskRow orow vrow).getD j 0
      = orow.getD j 0 + (if vrow.getD j false then (0 : ℝ) else 1) * (-1e9) :=
  getD_zipWith _ orow vrow j hjo hjv 0 false 0

@[simp]
theorem maskRow_length (orow : List ℝ) (vrow : List Bool) :
    (maskRow orow vrow).length = min orow.length vrow.length := by
  simp [maskRow]

/-- Any softmax entry is at most `exp` of its logit minus any other
in-range logit (the denominator dominates that term of the sum). -/
theorem softmaxRow_entry_le (xs : List ℝ) (j j0 : ℕ)
    (hj : j < xs.length) (hj0 : j0 < xs.length) :
    (softmaxRow xs).getD j 0 ≤ Real.exp (xs.getD j 0 - xs.getD j0 0) := by
  have hmem : Real.exp (xs.getD j0 0) ∈ xs.map Real.exp :=
    List.mem_map.mpr ⟨xs.getD j0 0, getD_mem xs j0 0 hj0, rfl⟩
  have hnonneg : ∀ x ∈ xs.map Real.exp, 0 ≤ x := by
    intro x hx
    obtain ⟨y, -, rfl⟩ := List.mem_map.mp hx
    exact (Real.exp_pos y).le
  have hS : Real.exp (xs.getD j0 0) ≤ (xs.map Real.exp).sum :=
    List.single_le_sum hnonneg _ hmem
  have hentry : (softmaxRow xs).getD j 0
      = Real.exp (xs.getD j 0) / (xs.map Real.exp).sum := by
    unfold softmaxRow
    exact getD_map_lt (fun x => Real.exp x / (xs.map Real.exp).sum) xs j hj 0 0
  rw [hentry, Real.exp_sub]
  exact div_le_div_of_nonneg_left (Real.exp_pos _).le (Real.exp_pos _) hS

/-- The quantity `exp (-8e8)` is comfortably below the `1e-6` epsilon. -/
theorem exp_neg_8e8_le : Real.exp (-8e8) ≤ 1e-6 := by
  have h1 : (8e8 : ℝ) + 1 ≤ Real.exp 8e8 := Real.add_one_le_exp _
  have h2 : (Real.exp (8e8 : ℝ))⁻¹ ≤ ((8e8 : ℝ) + 1)⁻¹ :=
    inv_anti₀ (by norm_num) h1
  calc Real.exp (-8e8) = (Real.exp (8e8 : ℝ))⁻¹ := by
        rw [← Real.exp_neg]
    _ ≤ ((8e8 : ℝ) + 1)⁻¹ := h2
    _ ≤ 1e-6 := by norm_num

/-- C5 counterexample: The invalid-action mask is the finite constant
`-1e9`, not `-∞`: with the temperature unset (greedy) and a valid action
whose raw value `-2e9` lies below the mask scale, the masked invalid
action (raw value 0, masked `-1e9`) is the row arg-max, so the invalid
action receives probability 1 — not at most a small epsilon — even though
the row has a valid action. -/
theorem beta_softmax_invalid_counterexample :
    ([true, false].getD 1 false = false)
    ∧ ([true, false].getD 0 false = true)
    ∧ ((beta_softmax ⟨1, none, none, none, none⟩ [[(-2e9 : ℝ), 0]] Mode.deploy
        (some [[true, false]])).getD 0 []).getD 1 0 = 1
    ∧ ¬ ((1 : ℝ) ≤ 1e-6) := by
  refine ⟨rfl, rfl, ?_, by norm_num⟩
  have hmask : applyValidityMask [[(-2e9 : ℝ), 0]] (some [[true, false]])
      = [[(-2e9 : ℝ), -1e9]] := by
    simp only [applyValidityMask, maskRow, List.zipWith_cons_cons, List.zipWith_nil_right]
    norm_num
  have hsingle : argmaxRow [(-1e9 : ℝ)] = 0 := by rw [argmaxRow]
  have hargmax : argmaxRow [(-2e9 : ℝ), -1e9] = 1 := by
    rw [argmaxRow, hsingle]
    rw [if_pos (by norm_num : (-2e9 : ℝ) < [(-1e9 : ℝ)].getD 0 0)]
  rw [beta_softmax_none ⟨1, none, none, none, none⟩ [[(-2e9 : ℝ), 0]] Mode.deploy
    (some [[true, false]]) rfl, hmask]
  rw [getD_map_lt oneHotRow _ 0 (by norm_num) [] []]
  rw [List.getD_cons_zero]
  rw [oneHotRow_getD _ 1 (by norm_num), hargmax, if_pos rfl]

/-- C5 (amended): The claim holds away from two numerical edge cases
of the finite `-1e9` additive mask: provided the row's raw values are
bounded (`|value| ≤ 1e8`) and the temperature selected for the mode, when
set, is at least 1 (strictly positive and not vanishingly small), every
action marked invalid receives at most `1e-6` probability — exactly 0 in
the greedy branch, and at most `exp(-8e8) ≤ 1e-6` in the softmax branch —
whenever the row has at least one valid action. -/
theorem beta_softmax_invalid_mass (a : QAgent) (o : List (List ℝ)) (mode : Mode)
    (V : List (List Bool)) (i j : ℕ)
    (hi : i < o.length) (hiV : i < V.length)
    (hlen : (o.getD i []).length = (V.getD i []).length)
    (hbound : ∀ x ∈ o.getD i [], |x| ≤ 1e8)
    (hvalid : ∃ j0, j0 < (V.getD i []).length ∧ (V.getD i []).getD j0 false = true)
    (hbeta : selectBeta a mode = none ∨ ∃ b, selectBeta a mode = some b ∧ 1 ≤ b)
    (hj : j < (V.getD i []).length)
    (hinv : (V.getD i []).getD j false = false) :
    ((beta_softmax a o mode (some V)).getD i []).getD j 0 ≤ 1e-6 := by
  obtain ⟨j0, hj0, hv0⟩ := hvalid
  have hjo : j < (o.getD i []).length := by omega
  have hj0o : j0 < (o.getD i []).length := by omega
  have hMi : (applyValidityMask o (some V)).getD i []
      = maskRow (o.getD i []) (V.getD i []) := by
    simp only [applyValidityMask]
    exact getD_zipWith maskRow o V i hi hiV [] [] []
  have hmlen : (maskRow (o.getD i []) (V.getD i [])).length = (V.getD i []).length := by
    rw [maskRow_length, hlen, min_self]
  have hiM : i < (applyValidityMask o (some V)).length := by
    simp only [applyValidityMask, List.length_zipWith]
    omega
  -- masked value of the invalid action j: at most -9e8
  have hmj : (maskRow (o.getD i []) (V.getD i [])).getD j 0 ≤ -9e8 := by
    have hx := (abs_le.mp (hbound _ (getD_mem _ j 0 hjo))).2
    have heq : (maskRow (o.getD i []) (V.getD i [])).getD j 0
        = (o.getD i []).getD j 0 + (-1e9) := by
      rw [maskRow_getD _ _ j hjo hj, hinv]
      norm_num
    rw [heq]
    linarith
  -- masked value of the valid action j0: at least -1e8
  have hmj0 : (-1e8 : ℝ) ≤ (maskRow (o.getD i []) (V.getD i [])).getD j0 0 := by
    have hx := (abs_le.mp (hbound _ (getD_mem _ j0 0 hj0o))).1
    have heq : (maskRow (o.getD i []) (V.getD i [])).getD j0 0
        = (o.getD i []).getD j0 0 := by
      rw [maskRow_getD _ _ j0 hj0o hj0, hv0]
      norm_num
    rw [heq]
    linarith
  rcases hbeta with hb | ⟨b, hb, hb1⟩
  · -- greedy branch: the arg-max is never the invalid action
    rw [beta_softmax_none a o mode (some V) hb]
    rw [getD_map_lt oneHotRow _ i hiM [] [], hMi]
    rw [oneHotRow_getD _ j (by omega)]
    have hne : j ≠ argmaxRow (maskRow (o.getD i []) (V.getD i [])) := by
      intro heq
      have hatt := argmaxRow_attains (maskRow (o.getD i []) (V.getD i [])) j0 (by omega)
      rw [← heq] at hatt
      linarith
    rw [if_neg hne]
    norm_num
  · -- softmax branch: bounded by exp of the scaled logit gap
    rw [beta_softmax_some a o mode (some V) b hb]
    rw [getD_map_lt (fun row => softmaxRow (row.map (fun x => x * b))) _ i hiM [] [], hMi]
    set mrow := maskRow (o.getD i []) (V.getD i []) with hmrow
    have hsl : (mrow.map (fun x => x * b)).length = mrow.length := by simp
    have hent := softmaxRow_entry_le (mrow.map (fun x => x * b)) j j0
      (by omega) (by omega)
    have hgj : (mrow.map (fun x => x * b)).getD j 0 = mrow.getD j 0 * b :=
      getD_map_lt (fun x => x * b) mrow j (by omega) 0 0
    have hgj0 : (mrow.map (fun x => x * b)).getD j0 0 = mrow.getD j0 0 * b :=
      getD_map_lt (fun x => x * b) mrow j0 (by omega) 0 0
    rw [hgj, hgj0] at hent
    have hgap : mrow.getD j 0 * b - mrow.getD j0 0 * b ≤ -8e8 := by
      have hdiff : mrow.getD j 0 - mrow.getD j0 0 ≤ -8e8 := by linarith
      have hb0 : (0 : ℝ) ≤ b := le_trans zero_le_one hb1
      calc mrow.getD j 0 * b - mrow.getD j0 0 * b
          = (mrow.getD j 0 - mrow.getD j0 0) * b := by ring
        _ ≤ (-8e8 : ℝ) * b := mul_le_mul_of_nonneg_right hdiff hb0
        _ ≤ (-8e8 : ℝ) * 1 := by
            have := mul_le_mul_of_nonpos_left hb1 (by norm_num : (-8e8 : ℝ) ≤ 0)
            linarith
        _ = -8e8 := by ring
    calc (softmaxRow (mrow.map (fun x => x * b))).getD j 0
        ≤ Real.exp (mrow.getD j 0 * b - mrow.getD j0 0 * b) := hent
      _ ≤ Real.exp (-8e8) := Real.exp_le_exp.mpr hgap
      _ ≤ 1e-6 := exp_neg_8e8_le

/-! ## Concrete-evaluation helpers -/

theorem argmaxRow_pair (x y : ℝ) : argmaxRow [x, y] = if x < y then 1 else 0 := by
  rw [argmaxRow]
  rw [show argmaxRow [y] = 0 from by rw [argmaxRow]]
  simp

theorem oneHotRow_pair (x y : ℝ) :
    oneHotRow [x, y] = if x < y then [0, 1] else [1, 0] := by
  unfold oneHotRow
  simp only [argmaxRow_pair, List.length_cons, List.length_nil]
  by_cases h : x < y <;> simp [h, List.range_succ]

/-- Evaluating `beta_softmax` on a single-row batch with the selected temperature
unset: the one-hot of the masked row. -/
theorem beta_softmax_greedy_single (a : QAgent) (mode : Mode)
    (hb : selectBeta a mode = none) (row : List ℝ) (vrow : List Bool) :
    beta_softmax a [row] mode (some [vrow]) = [oneHotRow (maskRow row vrow)] := by
  rw [beta_softmax_none a _ mode _ hb]
  simp [applyValidityMask]

/-- C1 (divergence evidence): `get_loss` computes the target policy
with the CURRENT state's validity mask: on a transition where action 0 is
valid only in the current state and action 1 only in the next state (target
values `[5, 3]`, greedy train policy), the code's `next_probabilities`
puts probability 1 on action 0 — an action invalid in the next state —
whereas `beta_softmax` applied with `next_state_action_validity`, as
specified, puts probability 1 on action 1. -/
theorem next_probabilities_validity_bug :
    gl_next_probabilities (⟨1, none, none, none, none⟩ : QAgent)
        (fun _ => [(5 : ℝ), 3])
        (⟨[()], [()], [0], [0], [[true, false]], [[false, true]]⟩ : BatchData Unit)
      = [[1, 0]]
    ∧ beta_softmax (⟨1, none, none, none, none⟩ : QAgent)
        (gl_next_q_values (fun _ => [(5 : ℝ), 3])
          (⟨[()], [()], [0], [0], [[true, false]], [[false, true]]⟩ : BatchData Unit))
        Mode.train (some [[false, true]])
      = [[0, 1]] := by
  have hnq : gl_next_q_values (fun _ => [(5 : ℝ), 3])
      (⟨[()], [()], [0], [0], [[true, false]], [[false, true]]⟩ : BatchData Unit)
      = [[(5 : ℝ) - 1e9, 3]] := by
    simp only [gl_next_q_values, invalidActionsMask, matAdd, List.map_cons,
      List.map_nil, List.zipWith_cons_cons, List.zipWith_nil_right, List.zipWith_nil_left]
    norm_num
  constructor
  · simp only [gl_next_probabilities, hnq]
    rw [beta_softmax_greedy_single (⟨1, none, none, none, none⟩ : QAgent) Mode.train rfl]
    have hm : maskRow [(5 : ℝ) - 1e9, 3] [true, false] = [(5 : ℝ) - 1e9, 3 - 1e9] := by
      simp only [maskRow, List.zipWith_cons_cons, List.zipWith_nil_right,
        List.zipWith_nil_left]
      norm_num
    rw [hm, oneHotRow_pair, if_neg (by norm_num)]
  · rw [hnq, beta_softmax_greedy_single (⟨1, none, none, none, none⟩ : QAgent) Mode.train rfl]
    have hm : maskRow [(5 : ℝ) - 1e9, 3] [false, true] = [(5 : ℝ) - 2e9, 3] := by
      simp only [maskRow, List.zipWith_cons_cons, List.zipWith_nil_right,
        List.zipWith_nil_left]
      norm_num
    rw [hm, oneHotRow_pair, if_pos (by norm_num)]

/-- Reading a doubly-indexed entry with default 0 out of a tensor whose
entries are bounded by a nonnegative `c` gives a value at most `c`. -/
theorem getD_getD_le (p : List (List ℝ)) (c : ℝ) (hc : 0 ≤ c)
    (h : ∀ row ∈ p, ∀ x ∈ row, x ≤ c) (i j : ℕ) : (p.getD i []).getD j 0 ≤ c := by
  rcases Nat.lt_or_ge i p.length with hi | hi
  · have hrow := getD_mem p i [] hi
    rcases Nat.lt_or_ge j (p.getD i []).length with hj | hj
    · exact h _ hrow _ (getD_mem _ j 0 hj)
    · rw [getD_of_ge _ _ _ hj]
      exact hc
  · rw [getD_of_ge _ _ _ hi]
    simpa using hc

/-- Clamping with `min · c` never increases any entry (out-of-range reads
agree on the default, since the clamp preserves shape). -/
theorem getD_map_min_le (p : List (List ℝ)) (c : ℝ) (i j : ℕ) :
    ((p.map (fun row => row.map (fun x => min x c))).getD i []).getD j 0
      ≤ (p.getD i []).getD j 0 := by
  rcases Nat.lt_or_ge i p.length with hi | hi
  · rw [getD_map_lt (fun row => row.map (fun x => min x c)) p i hi [] []]
    rcases Nat.lt_or_ge j (p.getD i []).length with hj | hj
    · rw [getD_map_lt (fun x => min x c) _ j hj 0 0]
      exact min_le_left _ _
    · rw [getD_of_ge _ _ _ (by simpa using hj), getD_of_ge _ _ _ hj]
  · rw [getD_of_ge (p.map (fun row => row.map (fun x => min x c))) i []
        (by simpa using hi),
      getD_of_ge p i [] hi]

/-- C2: With `gamma = 0.9` and `reward_cap = 10`, construction stores
`q_cap = 100`; in `get_loss` the next-state Q-values are clamped from above
at `q_cap` (every capped entry is at most 100 and at most its uncapped
value); the TD target is `reward + gamma * dot(next_probabilities,
next_q_capped)`; and on a transition with `reward = 5` whose pre-cap
expected next value is 200, the target is at most `5 + 0.9*100 = 95`,
never `5 + 0.9*200 = 185`. -/
theorem q_cap_and_target_bound {σ : Type} (bt bs bd : Option ℝ) (tnet : σ → List ℝ)
    (s s' : σ) (act : ℕ) (av nav : List Bool)
    (hlen1 : (tnet s').length = av.length)
    (hlen2 : (tnet s').length = nav.length)
    (hne : tnet s' ≠ [])
    (hdot : dotRow
        ((gl_next_probabilities (QAgent.init 0.9 bt bs bd (some 10)) tnet
          ⟨[s], [s'], [5], [act], [av], [nav]⟩).getD 0 [])
        ((gl_next_q_values tnet
          (⟨[s], [s'], [5], [act], [av], [nav]⟩ : BatchData σ)).getD 0 [])
      = 200) :
    ((QAgent.init 0.9 bt bs bd (some 10)).q_cap = some 100)
    ∧ (∀ i j, ((gl_next_q_values_capped (QAgent.init 0.9 bt bs bd (some 10)) tnet
          (⟨[s], [s'], [5], [act], [av], [nav]⟩ : BatchData σ)).getD i []).getD j 0
        ≤ 100)
    ∧ (∀ i j, ((gl_next_q_values_capped (QAgent.init 0.9 bt bs bd (some 10)) tnet
          (⟨[s], [s'], [5], [act], [av], [nav]⟩ : BatchData σ)).getD i []).getD j 0
        ≤ ((gl_next_q_values tnet
          (⟨[s], [s'], [5], [act], [av], [nav]⟩ : BatchData σ)).getD i []).getD j 0)
    ∧ ((gl_target_rewards (QAgent.init 0.9 bt bs bd (some 10)) tnet
          ⟨[s], [s'], [5], [act], [av], [nav]⟩).getD 0 0
        = 5 + (QAgent.init 0.9 bt bs bd (some 10)).gamma
            * dotRow
              ((gl_next_probabilities (QAgent.init 0.9 bt bs bd (some 10)) tnet
                ⟨[s], [s'], [5], [act], [av], [nav]⟩).getD 0 [])
              ((gl_next_q_values_capped (QAgent.init 0.9 bt bs bd (some 10)) tnet
                ⟨[s], [s'], [5], [act], [av], [nav]⟩).getD 0 []))
    ∧ ((gl_target_rewards (QAgent.init 0.9 bt bs bd (some 10)) tnet
          ⟨[s], [s'], [5], [act], [av], [nav]⟩).getD 0 0 ≤ 95) := by
  clear hdot
  set a := QAgent.init 0.9 bt bs bd (some 10) with ha
  set d : BatchData σ := ⟨[s], [s'], [5], [act], [av], [nav]⟩ with hd
  have hqcap : a.q_cap = some 100 := by
    rw [ha]
    simp only [QAgent.init, Option.map_some]
    norm_num
  have hgamma : a.gamma = 0.9 := rfl
  -- shape of the next-state Q tensor
  have hnq_len : (gl_next_q_values tnet d).length = 1 := by
    simp [gl_next_q_values, matAdd, invalidActionsMask, hd]
  have hnq0 : (gl_next_q_values tnet d).getD 0 []
      = List.zipWith (· + ·) (tnet s')
          (nav.map (fun v => (if v then (0 : ℝ) else 1) * (-1e9))) := by
    simp only [gl_next_q_values, matAdd, invalidActionsMask, hd, List.map_cons,
      List.map_nil, List.zipWith_cons_cons, List.zipWith_nil_right, List.zipWith_nil_left]
    rfl
  have hnq0_len : ((gl_next_q_values tnet d).getD 0 []).length = (tnet s').length := by
    rw [hnq0, List.length_zipWith, List.length_map, ← hlen2, min_self]
  -- shape of the capped tensor
  have hcapped : gl_next_q_values_capped a tnet d
      = (gl_next_q_values tnet d).map (fun row => row.map (fun x => min x 100)) := by
    simp only [gl_next_q_values_capped, hqcap]
  -- shape of the masked tensor feeding the target policy
  have hmasked_len : (applyValidityMask (gl_next_q_values tnet d) (some d.action_validity)).length = 1 := by
    simp only [applyValidityMask, List.length_zipWith, hnq_len, hd]
    rfl
  have hmasked0 : (applyValidityMask (gl_next_q_values tnet d) (some d.action_validity)).getD 0 []
      = maskRow ((gl_next_q_values tnet d).getD 0 []) av := by
    simp only [applyValidityMask]
    have := getD_zipWith maskRow (gl_next_q_values tnet d) d.action_validity 0
      (by omega) (by simp [hd]) [] [] []
    simpa [hd] using this
  have hmasked0_len : ((applyValidityMask (gl_next_q_values tnet d) (some d.action_validity)).getD 0 []).length
      = (tnet s').length := by
    rw [hmasked0, maskRow_length, hnq0_len, hlen1, min_self, ← hlen1]
  have hmasked0_ne : (applyValidityMask (gl_next_q_values tnet d) (some d.action_validity)).getD 0 [] ≠ [] := by
    intro hcontra
    have := congrArg List.length hcontra
    rw [hmasked0_len] at this
    exact hne (List.eq_nil_of_length_eq_zero (by simpa using this))
  -- the target-policy row is a probability vector
  have hprobs_def : gl_next_probabilities a tnet d
      = beta_softmax a (gl_next_q_values tnet d) Mode.train (some d.action_validity) := rfl
  have hprobs_len : (gl_next_probabilities a tnet d).length = 1 := by
    rw [hprobs_def, beta_softmax_length, hmasked_len]
  have hprobs_sum : ((gl_next_probabilities a tnet d).getD 0 []).sum = 1 := by
    rw [hprobs_def]
    exact beta_softmax_row_sum a _ Mode.train _ 0 (by omega) hmasked0_ne
  have hprobs_nonneg : ∀ x ∈ (gl_next_probabilities a tnet d).getD 0 [], 0 ≤ x := by
    intro x hx
    have hrow := getD_mem (gl_next_probabilities a tnet d) 0 [] (by omega)
    rw [hprobs_def] at hrow hx
    exact beta_softmax_entry_nonneg a _ Mode.train _ _ hrow x hx
  have hprobs_row_len : ((gl_next_probabilities a tnet d).getD 0 []).length
      = (tnet s').length := by
    rw [hprobs_def, beta_softmax_row_length a _ Mode.train _ 0 (by omega), hmasked0_len]
  -- capped row facts
  have hcapped0 : (gl_next_q_values_capped a tnet d).getD 0 []
      = ((gl_next_q_values tnet d).getD 0 []).map (fun x => min x 100) := by
    rw [hcapped]
    exact getD_map_lt _ _ 0 (by omega) [] []
  have hcapped0_le : ∀ y ∈ (gl_next_q_values_capped a tnet d).getD 0 [], y ≤ 100 := by
    rw [hcapped0]
    intro y hy
    obtain ⟨x, -, rfl⟩ := List.mem_map.mp hy
    exact min_le_right _ _
  have hcapped0_len : ((gl_next_q_values_capped a tnet d).getD 0 []).length
      = (tnet s').length := by
    rw [hcapped0, List.length_map, hnq0_len]
  have hcapped_len : (gl_next_q_values_capped a tnet d).length = 1 := by
    rw [hcapped, List.length_map, hnq_len]
  -- the expectation over capped values is at most 100
  have hdot_le : dotRow ((gl_next_probabilities a tnet d).getD 0 [])
      ((gl_next_q_values_capped a tnet d).getD 0 []) ≤ 100 := by
    have := dotRow_le_of_bound ((gl_next_probabilities a tnet d).getD 0 [])
      ((gl_next_q_values_capped a tnet d).getD 0 []) 100 hprobs_nonneg hcapped0_le
      (by rw [hprobs_row_len, hcapped0_len])
    rw [hprobs_sum] at this
    linarith
  -- the target value at batch row 0
  have hnv_len : (gl_next_values a tnet d).length = 1 := by
    simp [gl_next_values, List.length_zipWith, hprobs_len, hcapped_len]
  have hnv0 : (gl_next_values a tnet d).getD 0 0
      = dotRow ((gl_next_probabilities a tnet d).getD 0 [])
          ((gl_next_q_values_capped a tnet d).getD 0 []) := by
    simp only [gl_next_values]
    exact getD_zipWith dotRow _ _ 0 (by omega) (by omega) [] [] 0
  have htarget : (gl_target_rewards a tnet d).getD 0 0
      = 5 + a.gamma * (gl_next_values a tnet d).getD 0 0 := by
    simp only [gl_target_rewards]
    have := getD_zipWith (fun r v => r + a.gamma * v) d.reward (gl_next_values a tnet d)
      0 (by simp [hd]) (by omega) 0 0 0
    simpa [hd] using this
  refine ⟨hqcap, ?_, ?_, ?_, ?_⟩
  · intro i j
    rw [hcapped]
    apply getD_getD_le _ _ (by norm_num)
    intro row hrow x hx
    obtain ⟨r, -, rfl⟩ := List.mem_map.mp hrow
    obtain ⟨y, -, rfl⟩ := List.mem_map.mp hx
    exact min_le_right _ _
  · intro i j
    rw [hcapped]
    exact getD_map_min_le _ _ i j
  · rw [htarget, hnv0]
  · rw [htarget, hgamma]
    have := hnv0
    nlinarith [hdot_le, hnv0]

/-! ## Witnesses -/

/-- Witness for C8: capacity 2, three insertions, the oldest is evicted. -/
theorem stateBuffer_fifo_witness :
    (List.foldl StateBuffer.add (⟨2, 1, []⟩ : StateBuffer ℕ) [10, 20, 30]).len = 2
    ∧ (List.foldl StateBuffer.add (⟨2, 1, []⟩ : StateBuffer ℕ) [10, 20, 30]).buffers
        = [20, 30] := by
  have h := stateBuffer_fifo 2 1 1 [10, 20, 30] (by decide) (by decide)
  refine ⟨h.2.2.1, ?_⟩
  rw [h.2.2.2]
  rfl

/-- Witness for C7: a buffer of three transitions, batch size 2, sampled
positions `[2, 0]`. -/
theorem get_batch_witness :
    ((⟨5, 2, [10, 20, 30]⟩ : StateBuffer ℕ).get_batch [2, 0]).1 = Except.ok [30, 10]
    ∧ ((⟨5, 2, [10, 20, 30]⟩ : StateBuffer ℕ).get_batch [2, 0]).2
        = (⟨5, 2, [10, 20, 30]⟩ : StateBuffer ℕ) := by
  have h := (get_batch_spec (⟨5, 2, [10, 20, 30]⟩ : StateBuffer ℕ) [2, 0]
    (by decide) (by decide) (by decide) (by decide)).2 (by decide)
  exact ⟨h.1, h.2.2.2⟩

/-- Witness for C3: one 2-entry parameter tensor; `tau = 1` copies the
online parameters, `tau = 0` keeps the target parameters. -/
theorem update_target_network_witness :
    (update_target_network ⟨[[(1 : ℝ), 2]], [[3, 4]]⟩ 1).target_network = [[(1 : ℝ), 2]]
    ∧ (update_target_network ⟨[[(1 : ℝ), 2]], [[3, 4]]⟩ 0).target_network = [[(3 : ℝ), 4]]
    ∧ (update_target_network ⟨[[(1 : ℝ), 2]], [[3, 4]]⟩ 1).network = [[(1 : ℝ), 2]] := by
  have hshape : ∀ i, (((⟨[[(1 : ℝ), 2]], [[3, 4]]⟩ : Nets).target_network.getD i []).length
      = ((⟨[[(1 : ℝ), 2]], [[3, 4]]⟩ : Nets).network.getD i []).length) := by
    intro i
    cases i with
    | zero => rfl
    | succ n => simp [List.getD_cons_succ]
  have h1 := update_target_network_spec ⟨[[(1 : ℝ), 2]], [[3, 4]]⟩ 1 rfl hshape
  have h0 := update_target_network_spec ⟨[[(1 : ℝ), 2]], [[3, 4]]⟩ 0 rfl hshape
  exact ⟨h1.2.2.1 rfl, h0.2.2.2 rfl, h1.1⟩

/-- Witness for C9: greedy policy on the row `[0, 1]` puts probability 1 on
its arg-max. -/
theorem beta_softmax_greedy_witness :
    ((beta_softmax (⟨1, none, none, none, none⟩ : QAgent) [[(0 : ℝ), 1]] Mode.train
        none).getD 0 []).getD
      (argmaxRow ((applyValidityMask [[(0 : ℝ), 1]] none).getD 0 [])) 0 = 1 :=
  (beta_softmax_greedy_spec (⟨1, none, none, none, none⟩ : QAgent) [[(0 : ℝ), 1]]
    Mode.train none 0 rfl (by simp [applyValidityMask])
    (by simp [applyValidityMask])).1

/-- Witness for C6: a failing sampler on a singleton batch falls back to
the arg-max and returns a scalar. -/
theorem get_action_witness :
    get_action (⟨1, none, none, none, none⟩ : QAgent) (fun _ : Unit => [(0 : ℝ), 1]) [()]
      none Mode.sample (fun _ => none)
      = Sum.inl (argmaxRow ((beta_softmax (⟨1, none, none, none, none⟩ : QAgent)
          [[(0 : ℝ), 1]] Mode.sample none).getD 0 [])) := by
  have h := (get_action_spec (⟨1, none, none, none, none⟩ : QAgent)
    (fun _ : Unit => [(0 : ℝ), 1]) [()] none Mode.sample (fun _ => none)).1 rfl
  simp only [List.map_cons, List.map_nil] at h
  have hlen : (beta_softmax (⟨1, none, none, none, none⟩ : QAgent) [[(0 : ℝ), 1]]
      Mode.sample none).length = 1 := by
    rw [beta_softmax_length]
    rfl
  rw [h, if_pos hlen]

/-- Witness for C4 (amended): a tensor containing a NaN comes back as
all-ones. -/
theorem fixNonFinite_witness :
    (fixNonFinite [[PFloat.nan]]).getD 0 [] = [PFloat.finite 1] := by
  have h := (fixNonFinite_spec [[PFloat.nan]] 0).1 rfl
  simpa using h

/-- Witness for C5 (amended): bounded values `[0, 1]`, action 1 invalid,
greedy mode — the invalid action's mass is within the epsilon. -/
theorem beta_softmax_invalid_mass_witness :
    ((beta_softmax (⟨1, none, none, none, none⟩ : QAgent) [[(0 : ℝ), 1]] Mode.sample
        (some [[true, false]])).getD 0 []).getD 1 0 ≤ 1e-6 :=
  beta_softmax_invalid_mass (⟨1, none, none, none, none⟩ : QAgent) [[(0 : ℝ), 1]]
    Mode.sample [[true, false]] 0 1 (by decide) (by decide) rfl
    (by
      intro x hx
      simp only [List.getD_cons_zero, List.mem_cons, List.not_mem_nil, or_false] at hx
      rcases hx with rfl | rfl <;> norm_num)
    ⟨0, by decide, rfl⟩ (Or.inl rfl) (by decide) rfl

/-- Witness for C2: target values `[200, 0]`, all actions valid, greedy
train policy — the pre-cap expected next value is 200 and the TD target is
at most 95. -/
theorem q_cap_and_target_bound_witness :
    (gl_target_rewards (QAgent.init 0.9 none none none (some 10))
        (fun _ : Unit => [(200 : ℝ), 0])
        ⟨[()], [()], [5], [0], [[true, true]], [[true, true]]⟩).getD 0 0 ≤ 95 := by
  have hnq : gl_next_q_values (fun _ : Unit => [(200 : ℝ), 0])
      (⟨[()], [()], [5], [0], [[true, true]], [[true, true]]⟩ : BatchData Unit)
      = [[(200 : ℝ), 0]] := by
    simp only [gl_next_q_values, invalidActionsMask, matAdd, List.map_cons,
      List.map_nil, List.zipWith_cons_cons, List.zipWith_nil_right, List.zipWith_nil_left]
    norm_num
  have hmask : maskRow [(200 : ℝ), 0] [true, true] = [(200 : ℝ), 0] := by
    simp only [maskRow, List.zipWith_cons_cons, List.zipWith_nil_right, List.zipWith_nil_left]
    norm_num
  have hdot : dotRow
      ((gl_next_probabilities (QAgent.init 0.9 none none none (some 10))
        (fun _ : Unit => [(200 : ℝ), 0])
        ⟨[()], [()], [5], [0], [[true, true]], [[true, true]]⟩).getD 0 [])
      ((gl_next_q_values (fun _ : Unit => [(200 : ℝ), 0])
        (⟨[()], [()], [5], [0], [[true, true]], [[true, true]]⟩ : BatchData Unit)).getD 0 [])
      = 200 := by
    simp only [gl_next_probabilities, hnq]
    rw [beta_softmax_greedy_single (QAgent.init 0.9 none none none (some 10))
      Mode.train rfl, hmask, oneHotRow_pair, if_neg (by norm_num)]
    simp only [List.getD_cons_zero, dotRow, List.zipWith_cons_cons,
      List.zipWith_nil_right, List.zipWith_nil_left, List.sum_cons, List.sum_nil]
    norm_num
  exact (q_cap_and_target_bound none none none (fun _ : Unit => [(200 : ℝ), 0]) () () 0
    [true, true] [true, true] rfl rfl (by simp) hdot).2.2.2.2

end Learning
